import Mathlib

/-!
Verification of the-narrator's conversation model and persistence layer.

The repository ships the model and store modules (`narrator/models/thread.py`,
`narrator/models/message.py`, `narrator/models/attachment.py`,
`narrator/database/thread_store.py`, `narrator/storage/file_store.py`) only as
an installed package; this development embeds those components from the
specification (spec.md) and checks the testable properties against the
embedding.  Timestamps, reactions, metrics, platform bindings and free-form
attribute maps play no role in the properties below and are outside the
modelled fragment.  Byte strings are `List Nat`, filesystem paths are segment
lists, and the content hash is idealized as an injective function of the bytes.
-/

/-- Modelled from the spec: the closed role enumeration of `Message.role`
(`narrator/models/message.py` is not in the source tree); spec.md section 3:
"role (one of system/user/assistant/tool — closed enumeration)". -/
inductive Role where
  | system
  | user
  | assistant
  | tool
deriving DecidableEq, Repr

/-- Modelled from the spec: the `Attachment` entity of
`narrator/models/attachment.py` (not in the source tree); spec.md section 3.
`content` holds the optional in-memory bytes, `fileId`/`storagePath`/
`storageBackend` are populated only after a successful store.  The pydantic
computed `id` field is `Attachment.contentId` below. -/
structure Attachment where
  filename : String
  mimeType : Option String
  content : Option (List Nat)
  fileId : Option (List Nat)
  storagePath : Option (List String)
  storageBackend : Option String
deriving DecidableEq, Repr

/-- Modelled from the spec: the stable content hash used for attachment and
blob identity (spec.md sections 3 and 4.2).  Collision resistance is idealized:
the digest is an injective function of the bytes, taken here to be the byte
sequence itself. -/
def contentHash (b : List Nat) : List Nat := b

/-- Modelled from the spec: the pydantic-computed `id` field of `Attachment`,
"id (content hash, so byte-identical content always yields the same id
regardless of filename)" (spec.md section 3). -/
def Attachment.contentId (a : Attachment) : Option (List Nat) :=
  a.content.map contentHash

/-- Modelled from the spec: the `Message` entity of
`narrator/models/message.py` (not in the source tree); spec.md section 3.
`sequence` and `turn` are `none` before the message is added to a Thread. -/
structure Message where
  role : Role
  content : String
  sequence : Option Nat
  turn : Option Nat
  toolCallId : Option String
  name : Option String
  attachments : List Attachment
deriving DecidableEq, Repr

/-- A plain (not yet sequenced) message, as produced by the `Message`
constructor before insertion into a thread. -/
def mkMessage (role : Role) (content : String) : Message :=
  ⟨role, content, none, none, none, none, []⟩

/-- Modelled from the spec: construction-time validation of `Message`
(spec.md sections 4.1 and 7): a malformed role string is a validation error,
and "a tool-role message missing its required call-id field fails fast at
construction time".  The repository's tests (test_message.py
`test_tool_message_validation`, test_thread.py `test_get_message_counts`)
pin the error message and show that `name` is not required. -/
def parseRole (s : String) : Option Role :=
  if s = "system" then some Role.system
  else if s = "user" then some Role.user
  else if s = "assistant" then some Role.assistant
  else if s = "tool" then some Role.tool
  else none

/-- Modelled from the spec: the validating `Message` constructor; see
`parseRole`.  Returns a validation error for a malformed role and for a
tool-role message without `tool_call_id`. -/
def validateMessage (role : String) (content : String)
    (toolCallId : Option String) (name : Option String) :
    Except String Message :=
  match parseRole role with
  | none => Except.error "invalid role"
  | some r =>
    if r = Role.tool ∧ toolCallId = none then
      Except.error "tool_call_id is required for tool messages"
    else
      Except.ok ⟨r, content, none, none, toolCallId, name, []⟩

/-- Whether a message is a non-system message. -/
def Message.nonSystem (m : Message) : Bool :=
  decide (m.role ≠ Role.system)

/-- Modelled from the spec: the `Thread` entity of
`narrator/models/thread.py` (not in the source tree); spec.md section 3,
restricted to the fields the sequencing and persistence properties mention. -/
structure Thread where
  id : String
  messages : List Message
deriving DecidableEq, Repr

def Thread.empty (id : String) : Thread := ⟨id, []⟩

/-- The non-system messages of a thread, in list order. -/
def nsList (t : Thread) : List Message :=
  t.messages.filter Message.nonSystem

/-- Modelled from the spec: `max existing non-system sequence` used by `add`
(spec.md section 4.1): "sequence = (max existing non-system sequence) + 1,
starting at 1 for the first". -/
def Thread.maxSeq (t : Thread) : Nat :=
  (nsList t).foldl (fun a m => max a (m.sequence.getD 0)) 0

/-- Modelled from the spec: `current max turn` used by `add`
(spec.md section 4.1). -/
def Thread.maxTurn (t : Thread) : Nat :=
  t.messages.foldl (fun a m => max a (m.turn.getD 0)) 0

/-- Modelled from the spec: `get_current_turn` (spec.md section 4.1):
"0 if no non-system message exists, else the turn of the last non-system
message". -/
def Thread.currentTurn (t : Thread) : Nat :=
  match (nsList t).getLast? with
  | none => 0
  | some m => m.turn.getD 0

/-- Modelled from the spec: the turn assigned to a non-system message
(spec.md section 4.1): "if `same_turn` is true and at least one non-system
message already exists, reuse the turn of the most-recently-added non-system
message; otherwise `turn = (current max turn) + 1`". -/
def Thread.turnFor (t : Thread) (sameTurn : Bool) : Nat :=
  if sameTurn then
    match (nsList t).getLast? with
    | some prev => prev.turn.getD 0
    | none => t.maxTurn + 1
  else t.maxTurn + 1

/-- Modelled from the spec: `Thread.add_message` of
`narrator/models/thread.py` (not in the source tree); spec.md section 4.1.
A system message gets sequence 0, turn 0 and index 0 regardless of current
contents; a non-system message is appended with the next sequence and the
turn given by `Thread.turnFor`. -/
def Thread.addMessage (t : Thread) (m : Message) (sameTurn : Bool) : Thread :=
  if m.role = Role.system then
    { t with messages := { m with sequence := some 0, turn := some 0 } :: t.messages }
  else
    { t with messages := t.messages ++
        [{ m with sequence := some (t.maxSeq + 1), turn := some (t.turnFor sameTurn) }] }

/-- Modelled from the spec: `Thread.add_messages_batch`
(spec.md section 4.1): "equivalent to adding the first message normally ...
and every subsequent message in the batch with `same_turn=true`". -/
def Thread.addMessagesBatch (t : Thread) (msgs : List Message) : Thread :=
  match msgs with
  | [] => t
  | m :: rest => rest.foldl (fun a mi => a.addMessage mi true) (t.addMessage m false)

/-- One `add_message` call: the message and its `same_turn` flag. -/
def addStep (t : Thread) (p : Message × Bool) : Thread :=
  t.addMessage p.1 p.2

/-- The thread produced by a sequence of `add_message` calls on an initially
empty thread. -/
def buildThread (adds : List (Message × Bool)) : Thread :=
  adds.foldl addStep (Thread.empty "t")

/-- A message with the thread-assigned bookkeeping fields removed, used to
state that insertion order preserves the caller's messages. -/
def stripST (m : Message) : Message :=
  { m with sequence := none, turn := none }

/-! ### Basic facts about `add_message` -/

theorem stripST_assign (m : Message) (s tr : Nat) :
    stripST { m with sequence := some s, turn := some tr } = stripST m := rfl

theorem addMessage_system (t : Thread) (m : Message) (st : Bool)
    (h : m.role = Role.system) :
    (t.addMessage m st).messages
      = { m with sequence := some 0, turn := some 0 } :: t.messages := by
  simp [Thread.addMessage, h]

theorem addMessage_ns (t : Thread) (m : Message) (st : Bool)
    (h : ¬ m.role = Role.system) :
    (t.addMessage m st).messages
      = t.messages ++
          [{ m with sequence := some (t.maxSeq + 1), turn := some (t.turnFor st) }] := by
  simp [Thread.addMessage, h]

theorem nsList_addMessage_system (t : Thread) (m : Message) (st : Bool)
    (h : m.role = Role.system) :
    nsList (t.addMessage m st) = nsList t := by
  simp [nsList, Thread.addMessage, h, Message.nonSystem]

theorem nsList_addMessage_ns (t : Thread) (m : Message) (st : Bool)
    (h : ¬ m.role = Role.system) :
    nsList (t.addMessage m st)
      = nsList t ++
          [{ m with sequence := some (t.maxSeq + 1), turn := some (t.turnFor st) }] := by
  simp [nsList, Thread.addMessage, h, Message.nonSystem]

theorem foldl_max_le (l : List Message) :
    ∀ a : Nat, a ≤ l.foldl (fun acc mm => max acc (mm.turn.getD 0)) a
      ∧ ∀ mm ∈ l, mm.turn.getD 0 ≤ l.foldl (fun acc mm => max acc (mm.turn.getD 0)) a := by
  induction l with
  | nil => intro a; exact ⟨Nat.le_refl a, by simp⟩
  | cons x xs ih =>
    intro a
    constructor
    · calc a ≤ max a (x.turn.getD 0) := Nat.le_max_left _ _
        _ ≤ _ := (ih (max a (x.turn.getD 0))).1
    · intro mm hmm
      rcases List.mem_cons.mp hmm with h | h
      · subst h
        calc mm.turn.getD 0 ≤ max a (mm.turn.getD 0) := Nat.le_max_right _ _
          _ ≤ _ := (ih _).1
      · exact (ih _).2 mm h

theorem turn_lt_maxTurn_succ (t : Thread) :
    ∀ mm ∈ t.messages, mm.turn.getD 0 < t.maxTurn + 1 :=
  fun mm h => Nat.lt_succ_of_le ((foldl_max_le t.messages 0).2 mm h)

theorem foldl_max_seq : ∀ (l : List Message) (a n : Nat),
    l.map Message.sequence = (List.range' (a + 1) n).map some →
    l.foldl (fun acc mm => max acc (mm.sequence.getD 0)) a = a + n := by
  intro l
  induction l with
  | nil =>
    intro a n h
    cases n with
    | zero => simp
    | succ k => rw [List.range'_succ] at h; simp at h
  | cons x xs ih =>
    intro a n h
    cases n with
    | zero => simp at h
    | succ k =>
      rw [List.range'_succ] at h
      simp only [List.map_cons, List.cons.injEq] at h
      obtain ⟨hx, hxs⟩ := h
      have ihx := ih (a + 1) k hxs
      simp only [List.foldl_cons]
      rw [hx]
      simp only [Option.getD_some]
      rw [Nat.max_eq_right (Nat.le_succ a), ihx]
      omega

theorem maxSeq_eq_length (t : Thread)
    (h : (nsList t).map Message.sequence
          = (List.range' 1 (nsList t).length).map some) :
    t.maxSeq = (nsList t).length := by
  have h0 := foldl_max_seq (nsList t) 0 (nsList t).length (by simpa using h)
  simpa [Thread.maxSeq] using h0

/-- The reachability invariant of the sequencing engine: non-system sequence
numbers are exactly 1..N in list order, system messages hold sequence 0 and
turn 0, every inserted message carries a turn, the maximal turn is the turn of
the last non-system message, and a system message (when present) sits at
index 0. -/
def GoodThread (t : Thread) : Prop :=
  ((nsList t).map Message.sequence = (List.range' 1 (nsList t).length).map some)
  ∧ (∀ m ∈ t.messages, m.role = Role.system → m.sequence = some 0 ∧ m.turn = some 0)
  ∧ (∀ m ∈ t.messages, m.turn.isSome = true)
  ∧ t.maxTurn = t.currentTurn
  ∧ ((∃ m ∈ t.messages, m.role = Role.system) →
      ∃ m0, t.messages.head? = some m0 ∧ m0.role = Role.system)

theorem good_empty (id : String) : GoodThread (Thread.empty id) := by
  refine ⟨?_, ?_, ?_, ?_, ?_⟩ <;>
    simp [Thread.empty, nsList, Thread.maxTurn, Thread.currentTurn]

theorem good_add (t : Thread) (m : Message) (st : Bool) (h : GoodThread t) :
    GoodThread (t.addMessage m st) := by
  obtain ⟨hseq, hsys, hturn, hmax, hhead⟩ := h
  by_cases hm : m.role = Role.system
  · have hns := nsList_addMessage_system t m st hm
    have hmsg := addMessage_system t m st hm
    refine ⟨?_, ?_, ?_, ?_, ?_⟩
    · rw [hns]; exact hseq
    · intro mm hmm hrole
      rw [hmsg] at hmm
      rcases List.mem_cons.mp hmm with h1 | h1
      · subst h1; exact ⟨rfl, rfl⟩
      · exact hsys mm h1 hrole
    · intro mm hmm
      rw [hmsg] at hmm
      rcases List.mem_cons.mp hmm with h1 | h1
      · subst h1; rfl
      · exact hturn mm h1
    · have h1 : (t.addMessage m st).maxTurn = t.maxTurn := by
        simp [Thread.maxTurn, hmsg]
      have h2 : (t.addMessage m st).currentTurn = t.currentTurn := by
        simp [Thread.currentTurn, hns]
      rw [h1, h2, hmax]
    · intro _
      refine ⟨{ m with sequence := some 0, turn := some 0 }, ?_, hm⟩
      rw [hmsg]; rfl
  · have hns := nsList_addMessage_ns t m st hm
    have hmsg := addMessage_ns t m st hm
    refine ⟨?_, ?_, ?_, ?_, ?_⟩
    · rw [hns]
      have hlen : (nsList t ++
          [{ m with sequence := some (t.maxSeq + 1), turn := some (t.turnFor st) }]).length
            = (nsList t).length + 1 := by simp
      rw [hlen, List.range'_1_concat, List.map_append, List.map_append]
      rw [hseq]
      simp [maxSeq_eq_length t hseq, Nat.add_comm]
    · intro mm hmm hrole
      rw [hmsg] at hmm
      rcases List.mem_append.mp hmm with h1 | h1
      · exact hsys mm h1 hrole
      · rcases List.mem_singleton.mp h1 with h2
        subst h2
        exact absurd hrole hm
    · intro mm hmm
      rw [hmsg] at hmm
      rcases List.mem_append.mp hmm with h1 | h1
      · exact hturn mm h1
      · rcases List.mem_singleton.mp h1 with h2
        subst h2; rfl
    · have h1 : (t.addMessage m st).maxTurn = max t.maxTurn (t.turnFor st) := by
        simp [Thread.maxTurn, hmsg, List.foldl_append]
      have h2 : (t.addMessage m st).currentTurn = t.turnFor st := by
        simp [Thread.currentTurn, hns, List.getLast?_concat]
      rw [h1, h2]
      rcases st with _ | _
      · simp [Thread.turnFor]
      · simp only [Thread.turnFor]
        cases hlast : (nsList t).getLast? with
        | none => simp
        | some prev =>
          have : t.currentTurn = prev.turn.getD 0 := by
            simp [Thread.currentTurn, hlast]
          rw [hmax, this]
          simp
    · intro hex
      obtain ⟨ms, hms, hrole⟩ := hex
      rw [hmsg] at hms
      rcases List.mem_append.mp hms with h1 | h1
      · obtain ⟨m0, hm0, hm0r⟩ := hhead ⟨ms, h1, hrole⟩
        refine ⟨m0, ?_, hm0r⟩
        rw [hmsg]
        cases hcase : t.messages with
        | nil => rw [hcase] at hm0; simp at hm0
        | cons x xs =>
          rw [hcase] at hm0
          simp at hm0
          subst hm0
          rfl
      · rcases List.mem_singleton.mp h1 with h2
        subst h2
        exact absurd hrole hm

theorem good_foldl : ∀ (adds : List (Message × Bool)) (t : Thread),
    GoodThread t → GoodThread (adds.foldl addStep t) := by
  intro adds
  induction adds with
  | nil => intro t h; exact h
  | cons p ps ih =>
    intro t h
    exact ih (addStep t p) (good_add t p.1 p.2 h)

theorem good_build (adds : List (Message × Bool)) : GoodThread (buildThread adds) :=
  good_foldl adds (Thread.empty "t") (good_empty "t")

theorem trace_foldl : ∀ (adds : List (Message × Bool)) (t : Thread),
    (nsList (adds.foldl addStep t)).map stripST
      = (nsList t).map stripST
          ++ ((adds.map Prod.fst).filter Message.nonSystem).map stripST := by
  intro adds
  induction adds with
  | nil => intro t; simp
  | cons p ps ih =>
    intro t
    obtain ⟨m, st⟩ := p
    by_cases hm : m.role = Role.system
    · have hns := nsList_addMessage_system t m st hm
      have hfalse : Message.nonSystem m = false := by
        simp [Message.nonSystem, hm]
      simp only [List.foldl_cons, List.map_cons, List.filter_cons]
      rw [show addStep t (m, st) = t.addMessage m st from rfl]
      rw [ih (t.addMessage m st), hns, hfalse]
      simp
    · have hns := nsList_addMessage_ns t m st hm
      have htrue : Message.nonSystem m = true := by
        simp [Message.nonSystem, hm]
      simp only [List.foldl_cons, List.map_cons, List.filter_cons]
      rw [show addStep t (m, st) = t.addMessage m st from rfl]
      rw [ih (t.addMessage m st), hns, htrue]
      simp [stripST_assign]

/-! ### C1: sequence numbering -/

/-- C1: for every sequence of `add_message` calls on an initially empty
Thread, the non-system messages hold sequence numbers exactly 1..N in
insertion order; a system message, whenever added, receives sequence 0 (and
turn 0) and is placed at index 0 of the message list, and adding it does not
alter the already-present non-system messages. -/
theorem claim_c1_sequencing (adds : List (Message × Bool)) :
    ((nsList (buildThread adds)).map Message.sequence
       = (List.range' 1 ((adds.map Prod.fst).filter Message.nonSystem).length).map some)
    ∧ ((nsList (buildThread adds)).map stripST
       = ((adds.map Prod.fst).filter Message.nonSystem).map stripST)
    ∧ (∀ m ∈ (buildThread adds).messages, m.role = Role.system →
        m.sequence = some 0 ∧ m.turn = some 0)
    ∧ ((∃ m ∈ (buildThread adds).messages, m.role = Role.system) →
        ∃ m0, (buildThread adds).messages.head? = some m0 ∧ m0.role = Role.system)
    ∧ (∀ (m : Message) (st : Bool), m.role = Role.system →
        ((buildThread adds).addMessage m st).messages.head?
          = some { m with sequence := some 0, turn := some 0 }
        ∧ nsList ((buildThread adds).addMessage m st) = nsList (buildThread adds)) := by
  obtain ⟨hseq, hsys, hturn, hmax, hhead⟩ := good_build adds
  have htrace : (nsList (buildThread adds)).map stripST
      = ((adds.map Prod.fst).filter Message.nonSystem).map stripST := by
    have h0 := trace_foldl adds (Thread.empty "t")
    simpa [buildThread, nsList, Thread.empty] using h0
  have hlen : (nsList (buildThread adds)).length
      = ((adds.map Prod.fst).filter Message.nonSystem).length := by
    calc (nsList (buildThread adds)).length
        = ((nsList (buildThread adds)).map stripST).length := by rw [List.length_map]
      _ = (((adds.map Prod.fst).filter Message.nonSystem).map stripST).length := by
            rw [htrace]
      _ = ((adds.map Prod.fst).filter Message.nonSystem).length := by rw [List.length_map]
  refine ⟨?_, htrace, hsys, hhead, ?_⟩
  · rw [← hlen]; exact hseq
  · intro m st hm
    constructor
    · rw [addMessage_system _ m st hm]; rfl
    · exact nsList_addMessage_system _ m st hm

/-- Witness for C1: a concrete run with a user, an assistant, a system and a
second user message. -/
theorem claim_c1_sequencing_witness :
    (∃ m ∈ (buildThread [(mkMessage Role.user "u1", false),
        (mkMessage Role.system "s", false),
        (mkMessage Role.user "u2", false)]).messages, m.role = Role.system)
    ∧ ∃ m0, (buildThread [(mkMessage Role.user "u1", false),
        (mkMessage Role.system "s", false),
        (mkMessage Role.user "u2", false)]).messages.head? = some m0
        ∧ m0.role = Role.system :=
  ⟨by decide,
   (claim_c1_sequencing [(mkMessage Role.user "u1", false),
      (mkMessage Role.system "s", false),
      (mkMessage Role.user "u2", false)]).2.2.2.1 (by decide)⟩

/-! ### C3: turn assignment on a single add -/

/-- C3: on any reachable thread, adding a non-system message with
`same_turn=true` while a non-system message exists reuses the turn of the
most recently added non-system message (the last entry of `nsList`); with
`same_turn=false`, or when no non-system message exists, the new message gets
`max turn + 1`, a turn strictly greater than the turn of every message already
present. -/
theorem claim_c3_turn_assignment (adds : List (Message × Bool)) (m : Message)
    (hm : ¬ m.role = Role.system) :
    (∀ prev, (nsList (buildThread adds)).getLast? = some prev →
        ((buildThread adds).addMessage m true).messages.getLast?
          = some { m with sequence := some ((buildThread adds).maxSeq + 1),
                          turn := prev.turn })
    ∧ ((nsList (buildThread adds)).getLast? = none →
        ((buildThread adds).addMessage m true).messages.getLast?
          = some { m with sequence := some ((buildThread adds).maxSeq + 1),
                          turn := some ((buildThread adds).maxTurn + 1) })
    ∧ (((buildThread adds).addMessage m false).messages.getLast?
        = some { m with sequence := some ((buildThread adds).maxSeq + 1),
                        turn := some ((buildThread adds).maxTurn + 1) })
    ∧ (∀ m2 ∈ (buildThread adds).messages,
        m2.turn.getD 0 < (buildThread adds).maxTurn + 1) := by
  obtain ⟨hseq, hsys, hturn, hmax, hhead⟩ := good_build adds
  refine ⟨?_, ?_, ?_, turn_lt_maxTurn_succ _⟩
  · intro prev hprev
    have hprevmem : prev ∈ (buildThread adds).messages :=
      (List.mem_filter.mp (List.mem_of_getLast?_eq_some hprev)).1
    obtain ⟨k, hk⟩ := Option.isSome_iff_exists.mp (hturn prev hprevmem)
    have hfor : (buildThread adds).turnFor true = k := by
      simp [Thread.turnFor, hprev, hk]
    rw [addMessage_ns _ m true hm, List.getLast?_concat, hfor, hk]
  · intro hnone
    have hfor : (buildThread adds).turnFor true = (buildThread adds).maxTurn + 1 := by
      simp [Thread.turnFor, hnone]
    rw [addMessage_ns _ m true hm, List.getLast?_concat, hfor]
  · have hfor : (buildThread adds).turnFor false = (buildThread adds).maxTurn + 1 := by
      simp [Thread.turnFor]
    rw [addMessage_ns _ m false hm, List.getLast?_concat, hfor]

/-- Witness for C3: `same_turn=true` after one user message reuses turn 1. -/
theorem claim_c3_turn_assignment_witness :
    ((buildThread [(mkMessage Role.user "q", false)]).addMessage
        (mkMessage Role.assistant "a") true).messages.getLast?
      = some { mkMessage Role.assistant "a" with
                 sequence := some ((buildThread [(mkMessage Role.user "q", false)]).maxSeq + 1),
                 turn := Message.turn
                   { mkMessage Role.user "q" with sequence := some 1, turn := some 1 } } :=
  (claim_c3_turn_assignment [(mkMessage Role.user "q", false)]
      (mkMessage Role.assistant "a") (by decide)).1
    { mkMessage Role.user "q" with sequence := some 1, turn := some 1 } (by decide)

/-! ### C4: batched adds -/

/-- Folding `add_message _ true` over a batch of non-system messages appends
them with the shared turn `c` of the last non-system message and consecutive
sequence numbers. -/
theorem sameTurnFold : ∀ (msgs : List Message) (t : Thread) (c : Nat),
    GoodThread t →
    (∀ mi ∈ msgs, ¬ mi.role = Role.system) →
    (∃ p, (nsList t).getLast? = some p ∧ p.turn = some c) →
    ∃ suffix,
      (msgs.foldl (fun a mi => a.addMessage mi true) t).messages = t.messages ++ suffix
      ∧ suffix.map Message.turn = List.replicate msgs.length (some c)
      ∧ suffix.map Message.sequence
          = (List.range' ((nsList t).length + 1) msgs.length).map some
      ∧ suffix.map stripST = msgs.map stripST := by
  intro msgs
  induction msgs with
  | nil =>
    intro t c hg hns hlast
    exact ⟨[], by simp, by simp, by simp, by simp⟩
  | cons m rest ih =>
    intro t c hg hns hlast
    obtain ⟨p, hp, hpc⟩ := hlast
    have hm : ¬ m.role = Role.system := hns m (List.mem_cons_self m rest)
    obtain ⟨hseq, hsys, hturn, hmax, hhead⟩ := hg
    have hturnfor : t.turnFor true = c := by
      simp [Thread.turnFor, hp, hpc]
    have hmaxseq : t.maxSeq = (nsList t).length := maxSeq_eq_length t hseq
    have hmsg := addMessage_ns t m true hm
    have hnsl := nsList_addMessage_ns t m true hm
    have hg1 : GoodThread (t.addMessage m true) :=
      good_add t m true ⟨hseq, hsys, hturn, hmax, hhead⟩
    have hlast1 : ∃ p1, (nsList (t.addMessage m true)).getLast? = some p1
        ∧ p1.turn = some c := by
      refine ⟨{ m with sequence := some (t.maxSeq + 1), turn := some (t.turnFor true) },
        ?_, ?_⟩
      · rw [hnsl]; exact List.getLast?_concat _
      · simp [hturnfor]
    have hrest : ∀ mi ∈ rest, ¬ mi.role = Role.system :=
      fun mi hmi => hns mi (List.mem_cons_of_mem m hmi)
    obtain ⟨suffix, hsuf, hsuft, hsufs, hsufstrip⟩ :=
      ih (t.addMessage m true) c hg1 hrest hlast1
    have hlen1 : (nsList (t.addMessage m true)).length = (nsList t).length + 1 := by
      rw [hnsl]; simp
    refine ⟨{ m with sequence := some (t.maxSeq + 1), turn := some (t.turnFor true) }
        :: suffix, ?_, ?_, ?_, ?_⟩
    · simp only [List.foldl_cons]
      rw [hsuf, hmsg]
      simp
    · simp only [List.map_cons, hsuft, List.length_cons, List.replicate_succ]
      congr 1
      simp [hturnfor]
    · simp only [List.map_cons, hsufs, hlen1, List.length_cons]
      rw [List.range'_succ, List.map_cons]
      congr 1
      simp [hmaxseq]
    · simp only [List.map_cons, hsufstrip]
      congr 1

/-- C4 (amended): for every reachable thread and every batch of non-system
messages, `add_messages_batch` is the fold that adds the first message
normally and each later one with `same_turn=true`; all batch messages receive
the single turn `current_turn + 1`, and their sequence numbers continue the
thread's sequence consecutively (hence strictly increasing in batch order). -/
theorem claim_c4_batch_amended (adds : List (Message × Bool)) (msgs : List Message)
    (hns : ∀ mi ∈ msgs, ¬ mi.role = Role.system) :
    (∀ m0 rest, msgs = m0 :: rest →
        (buildThread adds).addMessagesBatch msgs
          = rest.foldl (fun a mi => a.addMessage mi true)
              ((buildThread adds).addMessage m0 false))
    ∧ ∃ suffix,
        ((buildThread adds).addMessagesBatch msgs).messages
          = (buildThread adds).messages ++ suffix
        ∧ suffix.map Message.turn
            = List.replicate msgs.length (some ((buildThread adds).currentTurn + 1))
        ∧ suffix.map Message.sequence
            = (List.range' ((nsList (buildThread adds)).length + 1) msgs.length).map some
        ∧ suffix.map stripST = msgs.map stripST := by
  constructor
  · intro m0 rest hmsgs
    subst hmsgs
    rfl
  · cases msgs with
    | nil => exact ⟨[], by simp [Thread.addMessagesBatch], by simp, by simp, by simp⟩
    | cons m0 rest =>
      have hm0 : ¬ m0.role = Role.system := hns m0 (List.mem_cons_self _ _)
      obtain ⟨hseq, hsys, hturn, hmax, hhead⟩ := good_build adds
      have hmsg := addMessage_ns (buildThread adds) m0 false hm0
      have hnsl := nsList_addMessage_ns (buildThread adds) m0 false hm0
      have hmaxseq : (buildThread adds).maxSeq = (nsList (buildThread adds)).length :=
        maxSeq_eq_length _ hseq
      have hturnfor : (buildThread adds).turnFor false
          = (buildThread adds).currentTurn + 1 := by
        simp [Thread.turnFor, hmax]
      have hg1 : GoodThread ((buildThread adds).addMessage m0 false) :=
        good_add _ m0 false ⟨hseq, hsys, hturn, hmax, hhead⟩
      have hlast1 : ∃ p1,
          (nsList ((buildThread adds).addMessage m0 false)).getLast? = some p1
          ∧ p1.turn = some ((buildThread adds).currentTurn + 1) := by
        refine ⟨{ m0 with sequence := some ((buildThread adds).maxSeq + 1),
                          turn := some ((buildThread adds).turnFor false) }, ?_, ?_⟩
        · rw [hnsl]; exact List.getLast?_concat _
        · simp [hturnfor]
      have hrest : ∀ mi ∈ rest, ¬ mi.role = Role.system :=
        fun mi hmi => hns mi (List.mem_cons_of_mem m0 hmi)
      obtain ⟨suffix, hsuf, hsuft, hsufs, hsufstrip⟩ :=
        sameTurnFold rest ((buildThread adds).addMessage m0 false)
          ((buildThread adds).currentTurn + 1) hg1 hrest hlast1
      have hlen1 : (nsList ((buildThread adds).addMessage m0 false)).length
          = (nsList (buildThread adds)).length + 1 := by
        rw [hnsl]; simp
      refine ⟨{ m0 with sequence := some ((buildThread adds).maxSeq + 1),
                        turn := some ((buildThread adds).turnFor false) } :: suffix,
        ?_, ?_, ?_, ?_⟩
      · show (rest.foldl (fun a mi => a.addMessage mi true)
            ((buildThread adds).addMessage m0 false)).messages = _
        rw [hsuf, hmsg]
        simp
      · simp only [List.map_cons, hsuft, List.length_cons, List.replicate_succ]
        congr 1
        simp [hturnfor]
      · simp only [List.map_cons, hsufs, hlen1, List.length_cons]
        rw [List.range'_succ, List.map_cons]
        congr 1
        simp [hmaxseq]
      · simp only [List.map_cons, hsufstrip]
        congr 1

/-- Counterexample to C4 as stated: a batch containing a system message does
not receive the shared turn `current_turn + 1`.  On an empty thread the
claimed turn would be 1, but the system message receives turn 0. -/
theorem claim_c4_counterexample :
    ((Thread.empty "t0").addMessagesBatch [mkMessage Role.system "S"]).messages.map
        Message.turn = [some 0]
    ∧ (Thread.empty "t0").currentTurn + 1 = 1 := by
  constructor
  · rfl
  · rfl

/-- Witness for the amended C4 at a concrete thread and batch. -/
theorem claim_c4_batch_amended_witness :
    ∃ suffix,
      ((buildThread [(mkMessage Role.user "p", false)]).addMessagesBatch
          [mkMessage Role.assistant "x", mkMessage Role.assistant "y"]).messages
        = (buildThread [(mkMessage Role.user "p", false)]).messages ++ suffix
      ∧ suffix.map Message.turn
          = List.replicate [mkMessage Role.assistant "x", mkMessage Role.assistant "y"].length
              (some ((buildThread [(mkMessage Role.user "p", false)]).currentTurn + 1))
      ∧ suffix.map Message.sequence
          = (List.range' ((nsList (buildThread [(mkMessage Role.user "p", false)])).length + 1)
              [mkMessage Role.assistant "x", mkMessage Role.assistant "y"].length).map some
      ∧ suffix.map stripST
          = [mkMessage Role.assistant "x", mkMessage Role.assistant "y"].map stripST :=
  (claim_c4_batch_amended [(mkMessage Role.user "p", false)]
      [mkMessage Role.assistant "x", mkMessage Role.assistant "y"] (by decide)).2

/-! ### Content Store (FileStore) -/

/-- Modelled from the spec: the stored-blob metadata record of the Content
Store (spec.md section 3, "Blob record"). -/
structure BlobRecord where
  path : List String
  size : Nat
  mimeType : Option String
  originalFilename : String
deriving DecidableEq, Repr

/-- Modelled from the spec: the Content Store state of
`narrator/storage/file_store.py` (not in the source tree); spec.md
section 4.2.  `maxSize` is the configured size ceiling
(`NARRATOR_MAX_FILE_SIZE`); `blobs` maps content hashes to blob records. -/
structure FileStore where
  maxSize : Nat
  blobs : List (List Nat × BlobRecord)
deriving DecidableEq, Repr

def lookupBlob : List (List Nat × BlobRecord) → List Nat → Option BlobRecord
  | [], _ => none
  | (k, r) :: rest, key => if k = key then some r else lookupBlob rest key

/-- Modelled from the spec: the generated collision-resistant filename of a
stored blob, derived from the content hash (spec.md section 4.2). -/
def storedName (b : List Nat) : String :=
  (contentHash b).foldl (fun s x => s ++ "-" ++ toString x) "blob"

/-- Modelled from the spec: the sharded storage path of a blob, "first N hex
characters as a directory prefix" followed by the generated filename
(spec.md section 4.2); paths are modelled as segment lists. -/
def blobPath (b : List Nat) : List String :=
  [toString ((contentHash b).headD 0), storedName b]

/-- The Content Store's canonical filename for content bytes: the basename of
the sharded storage path. -/
def canonicalFilename (b : List Nat) : String := storedName b

/-- The result dictionary of a Content Store write, as returned to
`Attachment.process_and_store`. -/
structure StoredInfo where
  id : List Nat
  storagePath : List String
  storageBackend : String
deriving DecidableEq, Repr

/-- Modelled from the spec: `FileStore.save` (the spec's `put`,
spec.md section 4.2): rejects content over the size ceiling before any write,
returns the existing location unchanged when a blob with the same hash exists
(dedup), and otherwise records the new blob under its sharded path. -/
def FileStore.save (fs : FileStore) (b : List Nat) (filename : String)
    (mime : Option String) : FileStore × Except String StoredInfo :=
  if b.length > fs.maxSize then
    (fs, Except.error "content exceeds maximum file size")
  else
    match lookupBlob fs.blobs (contentHash b) with
    | some _ => (fs, Except.ok ⟨contentHash b, blobPath b, "file"⟩)
    | none =>
      ({ fs with blobs := (contentHash b, ⟨blobPath b, b.length, mime, filename⟩) :: fs.blobs },
       Except.ok ⟨contentHash b, blobPath b, "file"⟩)

/-- The number of stored blobs whose hash is the hash of `b`. -/
def countBlob (fs : FileStore) (b : List Nat) : Nat :=
  (fs.blobs.filter (fun p => decide (p.1 = contentHash b))).length

/-- The basename of a storage path (`os.path.basename`): its last segment. -/
def pathBasename (p : List String) : String :=
  (p.getLast?).getD ""

/-! ### Attachment processing -/

/-- Whether an attachment is inline: in-memory content and no storage path
(spec.md section 3). -/
def Attachment.isInline (a : Attachment) : Bool :=
  a.content.isSome && a.storagePath.isNone

/-- The stored-state version of an inline attachment with content `c`:
filename updated to the Content Store's canonical filename, storage fields
set, in-memory content cleared (spec.md section 4.3). -/
def storedVersion (a : Attachment) (c : List Nat) : Attachment :=
  { a with filename := pathBasename (blobPath c),
           fileId := some (contentHash c),
           storagePath := some (blobPath c),
           storageBackend := some "file",
           content := none }

/-- Modelled from the spec: `Attachment.process_and_store` of
`narrator/models/attachment.py` (not in the source tree); spec.md
section 4.3 step (1): an inline attachment is written to the Content Store
and updated in place to the stored state; a Content Store failure is wrapped
in an error naming the attachment (error text pinned by
test_attachment.py `test_attachment_process_error_handling`); a non-inline
attachment is left untouched. -/
def Attachment.processAndStore (fs : FileStore) (a : Attachment) :
    FileStore × Except String Attachment :=
  match a.content, a.storagePath with
  | some c, none =>
    match FileStore.save fs c a.filename a.mimeType with
    | (fs1, Except.ok _) => (fs1, Except.ok (storedVersion a c))
    | (fs1, Except.error _) =>
      (fs1, Except.error ("Failed to process attachment " ++ a.filename))
  | _, _ => (fs, Except.ok a)

/-- Process every attachment of a list in order, stopping at the first
failure. -/
def processAttachments (fs : FileStore) : List Attachment →
    FileStore × Except String (List Attachment)
  | [] => (fs, Except.ok [])
  | a :: rest =>
    match Attachment.processAndStore fs a with
    | (fs1, Except.error e) => (fs1, Except.error e)
    | (fs1, Except.ok a1) =>
      match processAttachments fs1 rest with
      | (fs2, Except.error e) => (fs2, Except.error e)
      | (fs2, Except.ok rest1) => (fs2, Except.ok (a1 :: rest1))

/-- Process the attachments of one message. -/
def processMessage (fs : FileStore) (m : Message) :
    FileStore × Except String Message :=
  match processAttachments fs m.attachments with
  | (fs1, Except.error e) => (fs1, Except.error e)
  | (fs1, Except.ok atts) => (fs1, Except.ok { m with attachments := atts })

/-- Process the attachments of every message in order, stopping at the first
failure. -/
def processMessages (fs : FileStore) : List Message →
    FileStore × Except String (List Message)
  | [] => (fs, Except.ok [])
  | m :: rest =>
    match processMessage fs m with
    | (fs1, Except.error e) => (fs1, Except.error e)
    | (fs1, Except.ok m1) =>
      match processMessages fs1 rest with
      | (fs2, Except.error e) => (fs2, Except.error e)
      | (fs2, Except.ok rest1) => (fs2, Except.ok (m1 :: rest1))

/-! ### Thread Persistence Gateway -/

/-- Modelled from the spec: the durable state of the Memory Backend of
`narrator/database/thread_store.py` (not in the source tree); spec.md
section 4.4: "a process-local mapping from thread id to a stored snapshot". -/
structure ThreadStore where
  threads : List (String × Thread)
deriving DecidableEq, Repr

def lookupThread : List (String × Thread) → String → Option Thread
  | [], _ => none
  | (k, t) :: rest, key => if k = key then some t else lookupThread rest key

/-- Modelled from the spec: `ThreadStore.get` (spec.md section 4.3):
delegates to the backend mapping. -/
def ThreadStore.get (store : ThreadStore) (tid : String) : Option Thread :=
  lookupThread store.threads tid

/-- Modelled from the spec: `ThreadStore.save` of
`narrator/database/thread_store.py` (not in the source tree); spec.md
section 4.3: (1) store every inline attachment, aborting the whole save on
the first failure without touching the durable mapping; (2) upsert the thread
filtered to exclude its system message; (3) return the in-memory thread,
whose messages (system message included) survive with only their attachments
updated. -/
def ThreadStore.save (fs : FileStore) (store : ThreadStore) (t : Thread) :
    FileStore × ThreadStore × Except String Thread :=
  match processMessages fs t.messages with
  | (fs1, Except.error e) => (fs1, store, Except.error e)
  | (fs1, Except.ok msgs) =>
    let durable : Thread := { t with messages := msgs.filter Message.nonSystem }
    (fs1, ⟨(t.id, durable) :: store.threads⟩, Except.ok { t with messages := msgs })

/-! ### Attachment serialization -/

/-- A serialized field value of an attachment dump. -/
inductive DumpVal where
  | nullV
  | strV (s : String)
  | bytesV (b : List Nat)
  | pathV (p : List String)
deriving DecidableEq, Repr

def optStrV : Option String → DumpVal
  | none => DumpVal.nullV
  | some s => DumpVal.strV s

def optBytesV : Option (List Nat) → DumpVal
  | none => DumpVal.nullV
  | some b => DumpVal.bytesV b

def optPathV : Option (List String) → DumpVal
  | none => DumpVal.nullV
  | some p => DumpVal.pathV p

/-- Modelled from the spec: `Attachment.model_dump`; the in-memory `content`
field is excluded from serialization (pinned by test_attachment.py
`test_attachment_serialization`: "Content is never included in model_dump"),
so the dump lists every other modelled field and never a `content` key. -/
def Attachment.modelDump (a : Attachment) : List (String × DumpVal) :=
  [("filename", DumpVal.strV a.filename),
   ("mime_type", optStrV a.mimeType),
   ("file_id", optBytesV a.fileId),
   ("storage_path", optPathV a.storagePath),
   ("storage_backend", optStrV a.storageBackend)]

def lookupKey : List (String × DumpVal) → String → Option DumpVal
  | [], _ => none
  | (k, v) :: rest, key => if k = key then some v else lookupKey rest key

/-- Modelled from the spec: `Attachment.model_validate` on a serialized
attachment: fields are read back from the dump; an absent or null field
deserializes to `none`. -/
def Attachment.modelValidate (d : List (String × DumpVal)) : Option Attachment :=
  match lookupKey d "filename" with
  | some (DumpVal.strV f) =>
    some { filename := f,
           mimeType := match lookupKey d "mime_type" with
                       | some (DumpVal.strV s) => some s
                       | _ => none,
           content := match lookupKey d "content" with
                      | some (DumpVal.bytesV b) => some b
                      | _ => none,
           fileId := match lookupKey d "file_id" with
                     | some (DumpVal.bytesV b) => some b
                     | _ => none,
           storagePath := match lookupKey d "storage_path" with
                          | some (DumpVal.pathV p) => some p
                          | _ => none,
           storageBackend := match lookupKey d "storage_backend" with
                             | some (DumpVal.strV s) => some s
                             | _ => none }
  | _ => none

/-! ### Persistence lemmas -/

theorem nonSystem_iff (m : Message) :
    Message.nonSystem m = true ↔ ¬ m.role = Role.system := by
  simp [Message.nonSystem]

/-- The persisted projection of a message: everything `ThreadStore.save`
leaves untouched (attachment processing only rewrites `attachments`). -/
def persistedView (m : Message) : Role × String × Option Nat × Option Nat :=
  (m.role, m.content, m.sequence, m.turn)

theorem processMessage_ok_view (fs fs1 : FileStore) (m m1 : Message)
    (h : processMessage fs m = (fs1, Except.ok m1)) :
    persistedView m1 = persistedView m := by
  unfold processMessage at h
  split at h
  · simp at h
  · rename_i fsa atts hp
    simp only [Prod.mk.injEq, Except.ok.injEq] at h
    obtain ⟨hfs, hm⟩ := h
    subst hm
    rfl

theorem processMessages_ok_view : ∀ (msgs : List Message) (fs fs1 : FileStore)
    (msgs1 : List Message),
    processMessages fs msgs = (fs1, Except.ok msgs1) →
    msgs1.map persistedView = msgs.map persistedView := by
  intro msgs
  induction msgs with
  | nil =>
    intro fs fs1 msgs1 h
    simp only [processMessages, Prod.mk.injEq, Except.ok.injEq] at h
    rw [← h.2]
  | cons m rest ih =>
    intro fs fs1 msgs1 h
    unfold processMessages at h
    split at h
    · simp at h
    · rename_i fsa m1 hp
      split at h
      · simp at h
      · rename_i fsb rest1 hq
        simp only [Prod.mk.injEq, Except.ok.injEq] at h
        obtain ⟨hfs, hm⟩ := h
        rw [← hm]
        simp only [List.map_cons]
        rw [processMessage_ok_view fs fsa m m1 hp, ih fsa fsb rest1 hq]

theorem filter_ns_map_view : ∀ (l1 l2 : List Message),
    l1.map persistedView = l2.map persistedView →
    (l1.filter Message.nonSystem).map persistedView
      = (l2.filter Message.nonSystem).map persistedView := by
  intro l1
  induction l1 with
  | nil =>
    intro l2 h
    cases l2 with
    | nil => simp
    | cons b bs => simp at h
  | cons x xs ih =>
    intro l2 h
    cases l2 with
    | nil => simp at h
    | cons y ys =>
      simp only [List.map_cons, List.cons.injEq] at h
      obtain ⟨hxy, hxs⟩ := h
      have hrole : x.role = y.role := congrArg Prod.fst hxy
      by_cases hx : Message.nonSystem x = true
      · have hy : Message.nonSystem y = true := by
          rw [nonSystem_iff] at hx ⊢
          rw [← hrole]
          exact hx
        rw [List.filter_cons, List.filter_cons, if_pos hx, if_pos hy]
        simp only [List.map_cons]
        rw [hxy, ih ys hxs]
      · have hy : ¬ Message.nonSystem y = true := by
          rw [nonSystem_iff] at hx ⊢
          rw [← hrole]
          exact hx
        rw [List.filter_cons, List.filter_cons, if_neg hx, if_neg hy]
        exact ih ys hxs

theorem save_ok_parts (fs fs1 : FileStore) (store store1 : ThreadStore) (t t1 : Thread)
    (h : ThreadStore.save fs store t = (fs1, store1, Except.ok t1)) :
    ∃ msgs, processMessages fs t.messages = (fs1, Except.ok msgs)
      ∧ t1 = { t with messages := msgs }
      ∧ store1 = ⟨(t.id, { t with messages := msgs.filter Message.nonSystem })
          :: store.threads⟩ := by
  unfold ThreadStore.save at h
  split at h
  · simp at h
  · rename_i fsa msgs hp
    simp only [Prod.mk.injEq, Except.ok.injEq] at h
    obtain ⟨hfs, hst, ht⟩ := h
    subst hfs
    exact ⟨msgs, hp, ht.symm, hst.symm⟩

theorem save_error_parts (fs fs1 : FileStore) (store store1 : ThreadStore)
    (t : Thread) (e : String)
    (h : ThreadStore.save fs store t = (fs1, store1, Except.error e)) :
    store1 = store ∧ processMessages fs t.messages = (fs1, Except.error e) := by
  unfold ThreadStore.save at h
  split at h
  · rename_i fsa e2 hp
    simp only [Prod.mk.injEq, Except.error.injEq] at h
    obtain ⟨hfs, hst, he⟩ := h
    subst hfs
    subst he
    exact ⟨hst.symm, hp⟩
  · simp at h

theorem fsave_maxSize (fs : FileStore) (b : List Nat) (f : String) (mi : Option String) :
    (FileStore.save fs b f mi).1.maxSize = fs.maxSize := by
  unfold FileStore.save
  split
  · rfl
  · split <;> rfl

theorem processAndStore_maxSize (fs : FileStore) (a : Attachment) :
    (a.processAndStore fs).1.maxSize = fs.maxSize := by
  unfold Attachment.processAndStore
  split
  · rename_i c hc hp
    split
    · rename_i fsa info hs
      have h0 := fsave_maxSize fs c a.filename a.mimeType
      rw [hs] at h0
      exact h0
    · rename_i fsa e hs
      have h0 := fsave_maxSize fs c a.filename a.mimeType
      rw [hs] at h0
      exact h0
  · rfl

theorem processAttachments_maxSize : ∀ (atts : List Attachment) (fs : FileStore),
    (processAttachments fs atts).1.maxSize = fs.maxSize := by
  intro atts
  induction atts with
  | nil => intro fs; rfl
  | cons a rest ih =>
    intro fs
    unfold processAttachments
    split
    · rename_i fsa e hp
      have h0 := processAndStore_maxSize fs a
      rw [hp] at h0
      exact h0
    · rename_i fsa a1 hp
      have h0 := processAndStore_maxSize fs a
      rw [hp] at h0
      split
      · rename_i fsb e hq
        have h1 := ih fsa
        rw [hq] at h1
        exact h1.trans h0
      · rename_i fsb rest1 hq
        have h1 := ih fsa
        rw [hq] at h1
        exact h1.trans h0

theorem processMessage_maxSize (fs : FileStore) (m : Message) :
    (processMessage fs m).1.maxSize = fs.maxSize := by
  unfold processMessage
  split
  · rename_i fsa e hp
    have h0 := processAttachments_maxSize m.attachments fs
    rw [hp] at h0
    exact h0
  · rename_i fsa atts hp
    have h0 := processAttachments_maxSize m.attachments fs
    rw [hp] at h0
    exact h0

theorem fsave_error (fs : FileStore) (b : List Nat) (f : String) (mi : Option String)
    (fs1 : FileStore) (e : String)
    (h : FileStore.save fs b f mi = (fs1, Except.error e)) :
    fs1 = fs ∧ b.length > fs.maxSize := by
  unfold FileStore.save at h
  split at h
  · rename_i hgt
    simp only [Prod.mk.injEq, Except.error.injEq] at h
    exact ⟨h.1.symm, hgt⟩
  · split at h <;> simp at h

theorem processAndStore_error (fs fs1 : FileStore) (a : Attachment) (e : String)
    (h : a.processAndStore fs = (fs1, Except.error e)) :
    ∃ c, a.content = some c ∧ a.storagePath = none ∧ c.length > fs.maxSize
      ∧ e = "Failed to process attachment " ++ a.filename := by
  unfold Attachment.processAndStore at h
  split at h
  · rename_i c hc hp
    split at h
    · simp at h
    · rename_i fsa e2 hs
      simp only [Prod.mk.injEq, Except.error.injEq] at h
      obtain ⟨hfs, he⟩ := h
      obtain ⟨hfs2, hgt⟩ := fsave_error fs c a.filename a.mimeType fsa e2 hs
      exact ⟨c, hc, hp, hgt, he.symm⟩
  · simp at h

theorem processAttachments_error : ∀ (atts : List Attachment) (fs fs1 : FileStore)
    (e : String),
    processAttachments fs atts = (fs1, Except.error e) →
    ∃ a ∈ atts, ∃ c, a.content = some c ∧ a.storagePath = none
      ∧ c.length > fs.maxSize
      ∧ e = "Failed to process attachment " ++ a.filename := by
  intro atts
  induction atts with
  | nil => intro fs fs1 e h; simp [processAttachments] at h
  | cons a rest ih =>
    intro fs fs1 e h
    unfold processAttachments at h
    split at h
    · rename_i fsa e2 hp
      simp only [Prod.mk.injEq, Except.error.injEq] at h
      obtain ⟨hfs, he⟩ := h
      obtain ⟨c, hc, hsp, hgt, he2⟩ := processAndStore_error fs fsa a e2 hp
      exact ⟨a, List.mem_cons_self _ _, c, hc, hsp, hgt, he ▸ he2⟩
    · rename_i fsa a1 hp
      split at h
      · rename_i fsb e2 hq
        simp only [Prod.mk.injEq, Except.error.injEq] at h
        obtain ⟨hfs, he⟩ := h
        obtain ⟨a2, ha2, c, hc, hsp, hgt, he2⟩ := ih fsa fsb e2 hq
        have hms : fsa.maxSize = fs.maxSize := by
          have h0 := processAndStore_maxSize fs a
          rw [hp] at h0
          exact h0
        refine ⟨a2, List.mem_cons_of_mem a ha2, c, hc, hsp, ?_, he ▸ he2⟩
        rw [← hms]
        exact hgt
      · simp at h

theorem processMessage_error (fs fs1 : FileStore) (m : Message) (e : String)
    (h : processMessage fs m = (fs1, Except.error e)) :
    ∃ a ∈ m.attachments, ∃ c, a.content = some c ∧ a.storagePath = none
      ∧ c.length > fs.maxSize
      ∧ e = "Failed to process attachment " ++ a.filename := by
  unfold processMessage at h
  split at h
  · rename_i fsa e2 hp
    simp only [Prod.mk.injEq, Except.error.injEq] at h
    obtain ⟨hfs, he⟩ := h
    obtain ⟨a, ha, c, h1, h2, h3, h4⟩ :=
      processAttachments_error m.attachments fs fsa e2 hp
    exact ⟨a, ha, c, h1, h2, h3, he ▸ h4⟩
  · simp at h

theorem processMessages_error : ∀ (msgs : List Message) (fs fs1 : FileStore)
    (e : String),
    processMessages fs msgs = (fs1, Except.error e) →
    ∃ m ∈ msgs, ∃ a ∈ m.attachments, ∃ c,
      a.content = some c ∧ a.storagePath = none ∧ c.length > fs.maxSize
      ∧ e = "Failed to process attachment " ++ a.filename := by
  intro msgs
  induction msgs with
  | nil => intro fs fs1 e h; simp [processMessages] at h
  | cons m rest ih =>
    intro fs fs1 e h
    unfold processMessages at h
    split at h
    · rename_i fsa e2 hp
      simp only [Prod.mk.injEq, Except.error.injEq] at h
      obtain ⟨hfs, he⟩ := h
      obtain ⟨a, ha, c, h1, h2, h3, h4⟩ := processMessage_error fs fsa m e2 hp
      exact ⟨m, List.mem_cons_self _ _, a, ha, c, h1, h2, h3, he ▸ h4⟩
    · rename_i fsa m1 hp
      split at h
      · rename_i fsb e2 hq
        simp only [Prod.mk.injEq, Except.error.injEq] at h
        obtain ⟨hfs, he⟩ := h
        obtain ⟨m2, hm2, a, ha, c, h1, h2, h3, h4⟩ := ih fsa fsb e2 hq
        have hms : fsa.maxSize = fs.maxSize := by
          have h0 := processMessage_maxSize fs m
          rw [hp] at h0
          exact h0
        refine ⟨m2, List.mem_cons_of_mem m hm2, a, ha, c, h1, h2, ?_, he ▸ h4⟩
        rw [← hms]
        exact h3
      · simp at h

theorem persistedView_fields (m1 m2 : Message) (h : persistedView m1 = persistedView m2) :
    m1.role = m2.role ∧ m1.content = m2.content
    ∧ m1.sequence = m2.sequence ∧ m1.turn = m2.turn := by
  refine ⟨?_, ?_, ?_, ?_⟩
  · exact congrArg Prod.fst h
  · exact congrArg (fun p => p.2.1) h
  · exact congrArg (fun p => p.2.2.1) h
  · exact congrArg (fun p => p.2.2.2) h

/-! ### C2: save/get round trip -/

/-- C2: for a Thread with N non-system messages and M system messages
(M at most 1), a successful `save` followed by `get` returns a thread with
exactly N messages, none of role system, whose role, content, sequence and
turn are those the corresponding messages had before the save. -/
theorem claim_c2_roundtrip (fs fs1 : FileStore) (store store1 : ThreadStore)
    (t t1 : Thread) (N M : Nat)
    (hN : (t.messages.filter Message.nonSystem).length = N)
    (hM : (t.messages.filter (fun m => decide (m.role = Role.system))).length = M)
    (hM1 : M ≤ 1)
    (hsave : ThreadStore.save fs store t = (fs1, store1, Except.ok t1)) :
    ∃ r, store1.get t.id = some r
      ∧ r.messages.length = N
      ∧ (∀ m ∈ r.messages, ¬ m.role = Role.system)
      ∧ r.messages.map persistedView
          = (t.messages.filter Message.nonSystem).map persistedView := by
  obtain ⟨msgs, hp, ht1, hst⟩ := save_ok_parts fs fs1 store store1 t t1 hsave
  have hview := processMessages_ok_view t.messages fs fs1 msgs hp
  have hfil := filter_ns_map_view msgs t.messages hview
  refine ⟨{ t with messages := msgs.filter Message.nonSystem }, ?_, ?_, ?_, hfil⟩
  · rw [hst]
    simp [ThreadStore.get, lookupThread]
  · show (msgs.filter Message.nonSystem).length = N
    have hlen : (msgs.filter Message.nonSystem).length
        = (t.messages.filter Message.nonSystem).length := by
      have h1 := congrArg List.length hfil
      simpa using h1
    rw [hlen]
    exact hN
  · intro m hm
    exact (nonSystem_iff m).mp (List.mem_filter.mp hm).2

/-- Witness for C2: a thread with one system and one user message, saved into
an empty store. -/
theorem claim_c2_roundtrip_witness :
    ∃ fs1 store1 t1,
      ThreadStore.save ⟨10, []⟩ ⟨[]⟩
          (buildThread [(mkMessage Role.user "Hello", false),
            (mkMessage Role.system "Sys", false)])
        = (fs1, store1, Except.ok t1)
      ∧ ∃ r, store1.get (buildThread [(mkMessage Role.user "Hello", false),
            (mkMessage Role.system "Sys", false)]).id = some r
          ∧ r.messages.length = 1
          ∧ (∀ m ∈ r.messages, ¬ m.role = Role.system)
          ∧ r.messages.map persistedView
              = ((buildThread [(mkMessage Role.user "Hello", false),
                  (mkMessage Role.system "Sys", false)]).messages.filter
                    Message.nonSystem).map persistedView := by
  refine ⟨_, _, _, rfl, ?_⟩
  exact claim_c2_roundtrip ⟨10, []⟩ _ ⟨[]⟩ _
    (buildThread [(mkMessage Role.user "Hello", false),
      (mkMessage Role.system "Sys", false)]) _ 1 1
    (by decide) (by decide) (by decide) rfl

/-! ### C5: save leaves the in-memory thread intact -/

/-- C5: a successful `save` returns the in-memory thread: same id, every
message's role, content, sequence and turn unchanged (in particular a leading
system message keeps its role, sequence 0 and index 0); only the durable copy
handed to the backend excludes the system messages. -/
theorem claim_c5_save_frame (fs fs1 : FileStore) (store store1 : ThreadStore)
    (t t1 : Thread)
    (hsave : ThreadStore.save fs store t = (fs1, store1, Except.ok t1)) :
    t1.id = t.id
    ∧ t1.messages.map persistedView = t.messages.map persistedView
    ∧ t1.messages.length = t.messages.length
    ∧ store1.get t.id = some { t with messages := t1.messages.filter Message.nonSystem }
    ∧ (∀ m0, t.messages.head? = some m0 → m0.role = Role.system →
        ∃ m1, t1.messages.head? = some m1 ∧ m1.role = Role.system
          ∧ m1.sequence = m0.sequence ∧ m1.turn = m0.turn) := by
  obtain ⟨msgs, hp, ht1, hst⟩ := save_ok_parts fs fs1 store store1 t t1 hsave
  subst ht1
  have hview := processMessages_ok_view t.messages fs fs1 msgs hp
  refine ⟨rfl, hview, ?_, ?_, ?_⟩
  · have h1 := congrArg List.length hview
    simpa using h1
  · rw [hst]
    simp [ThreadStore.get, lookupThread]
  · intro m0 hh hrole
    cases hcase : t.messages with
    | nil => rw [hcase] at hh; simp at hh
    | cons x xs =>
      cases hmsgs : msgs with
      | nil => rw [hcase, hmsgs] at hview; simp at hview
      | cons y ys =>
        rw [hcase] at hh
        rw [hcase, hmsgs] at hview
        simp only [List.map_cons, List.cons.injEq] at hview
        obtain ⟨hyx, _⟩ := hview
        obtain ⟨hr, hc, hs, ht⟩ := persistedView_fields y x hyx
        have hx : x = m0 := by simpa using hh
        subst hx
        exact ⟨y, rfl, hr.trans hrole, hs, ht⟩

/-- Witness for C5: saving a thread whose first message is the system
message. -/
theorem claim_c5_save_frame_witness :
    ∃ fs1 store1 t1,
      ThreadStore.save ⟨10, []⟩ ⟨[]⟩
          (buildThread [(mkMessage Role.system "Sys", false),
            (mkMessage Role.user "Hi", false)])
        = (fs1, store1, Except.ok t1)
      ∧ t1.id = (buildThread [(mkMessage Role.system "Sys", false),
            (mkMessage Role.user "Hi", false)]).id
      ∧ t1.messages.map persistedView
          = (buildThread [(mkMessage Role.system "Sys", false),
              (mkMessage Role.user "Hi", false)]).messages.map persistedView := by
  refine ⟨_, _, _, rfl, ?_, ?_⟩
  · exact (claim_c5_save_frame ⟨10, []⟩ _ ⟨[]⟩ _
      (buildThread [(mkMessage Role.system "Sys", false),
        (mkMessage Role.user "Hi", false)]) _ rfl).1
  · exact (claim_c5_save_frame ⟨10, []⟩ _ ⟨[]⟩ _
      (buildThread [(mkMessage Role.system "Sys", false),
        (mkMessage Role.user "Hi", false)]) _ rfl).2.1

/-! ### C8: failed attachment storage aborts the save -/

/-- C8: when `save` fails, the durable mapping is exactly what it was before
the call (no partial thread row), and the error wraps the offending inline
attachment by name; the failure originates from that attachment's content
exceeding the Content Store's size ceiling, so no attachment was stored
without a successful Content Store write. -/
theorem claim_c8_save_abort (fs fs1 : FileStore) (store store1 : ThreadStore)
    (t : Thread) (e : String)
    (hsave : ThreadStore.save fs store t = (fs1, store1, Except.error e)) :
    store1 = store
    ∧ (∀ tid, store1.get tid = store.get tid)
    ∧ ∃ m ∈ t.messages, ∃ a ∈ m.attachments, ∃ c,
        a.content = some c ∧ a.storagePath = none ∧ c.length > fs.maxSize
        ∧ e = "Failed to process attachment " ++ a.filename := by
  obtain ⟨hst, hp⟩ := save_error_parts fs fs1 store store1 t e hsave
  refine ⟨hst, fun tid => by rw [hst], ?_⟩
  exact processMessages_error t.messages fs fs1 e hp

/-- Witness for C8: an attachment whose three content bytes exceed a size
ceiling of two aborts the save and leaves the store empty. -/
theorem claim_c8_save_abort_witness :
    ∃ fs1 store1,
      ThreadStore.save ⟨2, []⟩ ⟨[]⟩
          ⟨"tid", [⟨Role.user, "msg", some 1, some 1, none, none,
            [⟨"test.bin", some "application/octet-stream", some [0, 1, 2],
              none, none, none⟩]⟩]⟩
        = (fs1, store1, Except.error "Failed to process attachment test.bin")
      ∧ store1 = (⟨[]⟩ : ThreadStore) := by
  refine ⟨_, _, rfl, ?_⟩
  exact (claim_c8_save_abort ⟨2, []⟩ _ ⟨[]⟩ _
    ⟨"tid", [⟨Role.user, "msg", some 1, some 1, none, none,
      [⟨"test.bin", some "application/octet-stream", some [0, 1, 2],
        none, none, none⟩]⟩]⟩
    "Failed to process attachment test.bin" rfl).1

/-! ### C6: content addressing -/

theorem fsave_ok (fs : FileStore) (b : List Nat) (f : String) (mi : Option String)
    (fs1 : FileStore) (i : StoredInfo)
    (h : FileStore.save fs b f mi = (fs1, Except.ok i)) :
    i = ⟨contentHash b, blobPath b, "file"⟩
    ∧ b.length ≤ fs.maxSize
    ∧ (lookupBlob fs.blobs (contentHash b) = none →
        fs1 = { fs with blobs :=
          (contentHash b, ⟨blobPath b, b.length, mi, f⟩) :: fs.blobs })
    ∧ (∀ r, lookupBlob fs.blobs (contentHash b) = some r → fs1 = fs) := by
  unfold FileStore.save at h
  split at h
  · simp at h
  · rename_i hle
    split at h
    · rename_i r hr
      simp only [Prod.mk.injEq, Except.ok.injEq] at h
      obtain ⟨hfs, hi⟩ := h
      refine ⟨hi.symm, by omega, ?_, fun r2 hr2 => hfs.symm⟩
      intro hn
      rw [hr] at hn
      simp at hn
    · rename_i hr
      simp only [Prod.mk.injEq, Except.ok.injEq] at h
      obtain ⟨hfs, hi⟩ := h
      refine ⟨hi.symm, by omega, fun hn => hfs.symm, ?_⟩
      intro r2 hr2
      rw [hr] at hr2
      simp at hr2

theorem lookupBlob_none_count (bl : List (List Nat × BlobRecord)) (k : List Nat)
    (h : lookupBlob bl k = none) :
    (bl.filter (fun p => decide (p.1 = k))).length = 0 := by
  induction bl with
  | nil => simp
  | cons p rest ih =>
    obtain ⟨k1, r1⟩ := p
    unfold lookupBlob at h
    split at h
    · simp at h
    · rename_i hne
      have hcond : decide (((k1, r1) : List Nat × BlobRecord).1 = k) = false := by
        simpa using hne
      rw [List.filter_cons, hcond]
      simpa using ih h

/-- C6: the attachment id is the content hash (equal ids for byte-identical
content regardless of filename, distinct ids for distinct bytes), and
`FileStore.save` (the spec's `put`) is content-addressed: a repeated save of
identical bytes returns the same id, leaves the store unchanged and results
in exactly one stored blob, while different bytes receive different ids. -/
theorem claim_c6_content_addressing :
    (∀ a1 a2 : Attachment, a1.content = a2.content → a1.contentId = a2.contentId)
    ∧ (∀ (a1 a2 : Attachment) (c1 c2 : List Nat),
        a1.content = some c1 → a2.content = some c2 → ¬ c1 = c2 →
        ¬ a1.contentId = a2.contentId)
    ∧ (∀ (fs fs1 fs2 : FileStore) (b : List Nat) (f1 f2 : String)
        (m1 m2 : Option String) (i1 i2 : StoredInfo),
        FileStore.save fs b f1 m1 = (fs1, Except.ok i1) →
        FileStore.save fs1 b f2 m2 = (fs2, Except.ok i2) →
        i1.id = i2.id ∧ fs2 = fs1
          ∧ (lookupBlob fs.blobs (contentHash b) = none → countBlob fs2 b = 1))
    ∧ (∀ (fs fs2 : FileStore) (b1 b2 : List Nat) (f1 f2 : String)
        (m1 m2 : Option String) (fs1 fs3 : FileStore) (i1 i2 : StoredInfo),
        ¬ b1 = b2 →
        FileStore.save fs b1 f1 m1 = (fs1, Except.ok i1) →
        FileStore.save fs2 b2 f2 m2 = (fs3, Except.ok i2) →
        ¬ i1.id = i2.id) := by
  refine ⟨?_, ?_, ?_, ?_⟩
  · intro a1 a2 h
    simp [Attachment.contentId, h]
  · intro a1 a2 c1 c2 h1 h2 hne hid
    exact hne (by simpa [Attachment.contentId, h1, h2, contentHash] using hid)
  · intro fs fs1 fs2 b f1 f2 m1 m2 i1 i2 h1 h2
    obtain ⟨hi1, hle1, hnone1, hsome1⟩ := fsave_ok fs b f1 m1 fs1 i1 h1
    obtain ⟨hi2, hle2, hnone2, hsome2⟩ := fsave_ok fs1 b f2 m2 fs2 i2 h2
    refine ⟨by rw [hi1, hi2], ?_, ?_⟩
    · cases hl : lookupBlob fs.blobs (contentHash b) with
      | some r =>
        have hfs1 : fs1 = fs := hsome1 r hl
        refine hsome2 r ?_
        rw [hfs1]
        exact hl
      | none =>
        have hfs1 := hnone1 hl
        refine hsome2 ⟨blobPath b, b.length, m1, f1⟩ ?_
        rw [hfs1]
        simp [lookupBlob]
    · intro hl
      have hfs1 := hnone1 hl
      have hl1 : lookupBlob fs1.blobs (contentHash b)
          = some ⟨blobPath b, b.length, m1, f1⟩ := by
        rw [hfs1]
        simp [lookupBlob]
      have hfs2 : fs2 = fs1 := hsome2 _ hl1
      have h0 := lookupBlob_none_count fs.blobs (contentHash b) hl
      rw [hfs2, hfs1]
      simp [countBlob, List.filter_cons, h0]
  · intro fs fs2 b1 b2 f1 f2 m1 m2 fs1 fs3 i1 i2 hne h1 h2
    obtain ⟨hi1, _, _, _⟩ := fsave_ok fs b1 f1 m1 fs1 i1 h1
    obtain ⟨hi2, _, _, _⟩ := fsave_ok fs2 b2 f2 m2 fs3 i2 h2
    rw [hi1, hi2]
    simpa [contentHash] using hne

/-- Witness for C6: saving the same two bytes twice into an empty store. -/
theorem claim_c6_content_addressing_witness :
    ∃ fs1 fs2 i1 i2,
      FileStore.save ⟨10, []⟩ [1, 2] "a.txt" (some "text/plain")
        = (fs1, Except.ok i1)
      ∧ FileStore.save fs1 [1, 2] "b.txt" none = (fs2, Except.ok i2)
      ∧ i1.id = i2.id ∧ fs2 = fs1 ∧ countBlob fs2 [1, 2] = 1 := by
  refine ⟨_, _, _, _, rfl, rfl, ?_⟩
  have h := (claim_c6_content_addressing).2.2.1 ⟨10, []⟩ _ _ [1, 2] "a.txt" "b.txt"
    (some "text/plain") none _ _ rfl rfl
  exact ⟨h.1, h.2.1, h.2.2 (by rfl)⟩

/-! ### C7: attachment lifecycle -/

/-- The relation between an attachment before and after a successful save:
an inline attachment becomes its stored version; a non-inline one is left
untouched. -/
def storedState (a a1 : Attachment) : Prop :=
  (∀ c, a.content = some c → a.storagePath = none → a1 = storedVersion a c)
  ∧ (a.isInline = false → a1 = a)

theorem processAndStore_ok (fs fs1 : FileStore) (a a1 : Attachment)
    (h : a.processAndStore fs = (fs1, Except.ok a1)) :
    storedState a a1 := by
  unfold Attachment.processAndStore at h
  split at h
  · rename_i c2 hc2 hp2
    split at h
    · rename_i fsa info hs
      simp only [Prod.mk.injEq, Except.ok.injEq] at h
      constructor
      · intro c hc hp
        rw [hc2] at hc
        injection hc with hcc
        subst hcc
        exact h.2.symm
      · intro hinl
        simp [Attachment.isInline, hc2, hp2] at hinl
    · simp at h
  · rename_i hno
    simp only [Prod.mk.injEq, Except.ok.injEq] at h
    constructor
    · intro c hc hp
      exact (hno c hc hp).elim
    · intro _
      exact h.2.symm

theorem processAttachments_ok_forall2 : ∀ (atts : List Attachment)
    (fs fs1 : FileStore) (atts1 : List Attachment),
    processAttachments fs atts = (fs1, Except.ok atts1) →
    List.Forall₂ storedState atts atts1 := by
  intro atts
  induction atts with
  | nil =>
    intro fs fs1 atts1 h
    simp only [processAttachments, Prod.mk.injEq, Except.ok.injEq] at h
    rw [← h.2]
    exact List.Forall₂.nil
  | cons a rest ih =>
    intro fs fs1 atts1 h
    unfold processAttachments at h
    split at h
    · simp at h
    · rename_i fsa a1 hp
      split at h
      · simp at h
      · rename_i fsb rest1 hq
        simp only [Prod.mk.injEq, Except.ok.injEq] at h
        rw [← h.2]
        exact List.Forall₂.cons (processAndStore_ok fs fsa a a1 hp) (ih fsa fsb rest1 hq)

theorem processMessage_ok_forall2 (fs fs1 : FileStore) (m m1 : Message)
    (h : processMessage fs m = (fs1, Except.ok m1)) :
    List.Forall₂ storedState m.attachments m1.attachments := by
  unfold processMessage at h
  split at h
  · simp at h
  · rename_i fsa atts hp
    simp only [Prod.mk.injEq, Except.ok.injEq] at h
    rw [← h.2]
    exact processAttachments_ok_forall2 m.attachments fs fsa atts hp

theorem processMessages_ok_forall2 : ∀ (msgs : List Message) (fs fs1 : FileStore)
    (msgs1 : List Message),
    processMessages fs msgs = (fs1, Except.ok msgs1) →
    List.Forall₂ (fun m m1 => List.Forall₂ storedState m.attachments m1.attachments)
      msgs msgs1 := by
  intro msgs
  induction msgs with
  | nil =>
    intro fs fs1 msgs1 h
    simp only [processMessages, Prod.mk.injEq, Except.ok.injEq] at h
    rw [← h.2]
    exact List.Forall₂.nil
  | cons m rest ih =>
    intro fs fs1 msgs1 h
    unfold processMessages at h
    split at h
    · simp at h
    · rename_i fsa m1 hp
      split at h
      · simp at h
      · rename_i fsb rest1 hq
        simp only [Prod.mk.injEq, Except.ok.injEq] at h
        rw [← h.2]
        exact List.Forall₂.cons (processMessage_ok_forall2 fs fsa m m1 hp)
          (ih fsa fsb rest1 hq)

/-- C7: an inline attachment (content present, no storage path) that is
successfully processed — directly or during a thread save — ends in the
stored state: storage path and file id set, content cleared, and filename
equal to the Content Store's canonical filename. -/
theorem claim_c7_attachment_lifecycle :
    (∀ (fs fs1 : FileStore) (a a1 : Attachment) (c : List Nat),
        a.content = some c → a.storagePath = none →
        a.processAndStore fs = (fs1, Except.ok a1) →
        a1.storagePath = some (blobPath c) ∧ a1.fileId = some (contentHash c)
          ∧ a1.content = none ∧ a1.filename = canonicalFilename c
          ∧ a1 = storedVersion a c)
    ∧ (∀ (fs fs1 : FileStore) (store store1 : ThreadStore) (t t1 : Thread),
        ThreadStore.save fs store t = (fs1, store1, Except.ok t1) →
        List.Forall₂ (fun m m1 => List.Forall₂ storedState m.attachments m1.attachments)
          t.messages t1.messages) := by
  constructor
  · intro fs fs1 a a1 c hc hp h
    have ha1 := (processAndStore_ok fs fs1 a a1 h).1 c hc hp
    subst ha1
    exact ⟨rfl, rfl, rfl, rfl, rfl⟩
  · intro fs fs1 store store1 t t1 h
    obtain ⟨msgs, hp, ht1, hst⟩ := save_ok_parts fs fs1 store store1 t t1 h
    subst ht1
    exact processMessages_ok_forall2 t.messages fs fs1 msgs hp

/-- Witness for C7: a concrete inline attachment is processed into the stored
state. -/
theorem claim_c7_attachment_lifecycle_witness :
    ∃ fs1 a1,
      Attachment.processAndStore ⟨10, []⟩
          ⟨"orig.txt", some "text/plain", some [1, 2], none, none, none⟩
        = (fs1, Except.ok a1)
      ∧ a1.storagePath = some (blobPath [1, 2])
      ∧ a1.fileId = some (contentHash [1, 2])
      ∧ a1.content = none
      ∧ a1.filename = canonicalFilename [1, 2] := by
  refine ⟨_, _, rfl, ?_⟩
  have h := (claim_c7_attachment_lifecycle).1 ⟨10, []⟩ _
    ⟨"orig.txt", some "text/plain", some [1, 2], none, none, none⟩ _ [1, 2] rfl rfl rfl
  exact ⟨h.1, h.2.1, h.2.2.1, h.2.2.2.1⟩

/-! ### C9: tool message validation -/

/-- Counterexample to C9 as stated: a tool-role message constructed with
`tool_call_id` but without `name` is accepted (the repository's tests build
such messages, e.g. test_thread.py `test_get_message_counts`), so the two
fields are not required together. -/
theorem claim_c9_counterexample :
    validateMessage "tool" "Tool message" (some "123") none
      = Except.ok ⟨Role.tool, "Tool message", none, none, some "123", none, []⟩ := by
  rfl

/-- C9 (amended): constructing a tool-role message fails with a validation
error at construction time when `tool_call_id` is missing; `name` is
optional; a malformed role likewise fails at construction. -/
theorem claim_c9_tool_validation_amended :
    (∀ content name, validateMessage "tool" content none name
        = Except.error "tool_call_id is required for tool messages")
    ∧ (∀ content tcid name, ¬ tcid = none →
        ∃ msg, validateMessage "tool" content tcid name = Except.ok msg
          ∧ msg.role = Role.tool ∧ msg.toolCallId = tcid)
    ∧ (∀ role content tcid name, parseRole role = none →
        validateMessage role content tcid name = Except.error "invalid role") := by
  refine ⟨?_, ?_, ?_⟩
  · intro content name
    rfl
  · intro content tcid name htc
    cases tcid with
    | none => exact absurd rfl htc
    | some x =>
      exact ⟨⟨Role.tool, content, none, none, some x, name, []⟩, rfl, rfl, rfl⟩
  · intro role content tcid name hrole
    unfold validateMessage
    rw [hrole]

/-- Witness for the amended C9 at concrete inputs. -/
theorem claim_c9_tool_validation_amended_witness :
    validateMessage "tool" "Tool result" none none
      = Except.error "tool_call_id is required for tool messages"
    ∧ (∃ msg, validateMessage "tool" "Tool result" (some "call_123") none
        = Except.ok msg ∧ msg.role = Role.tool ∧ msg.toolCallId = some "call_123")
    ∧ validateMessage "bogus" "x" none none = Except.error "invalid role" := by
  refine ⟨?_, ?_, ?_⟩
  · exact (claim_c9_tool_validation_amended).1 "Tool result" none
  · exact (claim_c9_tool_validation_amended).2.1 "Tool result" (some "call_123") none
      (by simp)
  · exact (claim_c9_tool_validation_amended).2.2 "bogus" "x" none none (by rfl)

/-! ### C10: attachment serialization excludes content -/

/-- C10: `model_dump` of an Attachment never includes the `content` field,
even when in-memory content bytes are present, and deserializing such a dump
yields an Attachment whose content is null and whose other fields are
unchanged. -/
theorem claim_c10_dump_excludes_content (a : Attachment) :
    ((Attachment.modelDump a).map Prod.fst).contains "content" = false
    ∧ Attachment.modelValidate (Attachment.modelDump a)
        = some { a with content := none } := by
  obtain ⟨f, mt, ct, fid, sp, sb⟩ := a
  constructor
  · rfl
  · cases mt <;> cases fid <;> cases sp <;> cases sb <;> rfl
